import Mathlib

/-!
# Verification of the RGB Core schema and rights layer

A shallow embedding of the schema system, rights containers and
validation-script dispatch of the RGB Core consensus library, together
with proofs of the behavioural properties stated in its specification.

Machine integers (`u8`/`u16`/`u24`) are embedded as `Nat`; bounded
ordered collections are embedded as strictly-sorted association lists
carrying their sortedness and size invariants as propositional fields.
-/

namespace RgbCore

/-! ## Script and VM dispatch (src/schema/script.rs) -/

/-- Virtual machine types (`VmType` in `script.rs`). -/
inductive VmType where
  | Embedded : VmType
  | AluVM : VmType
deriving DecidableEq, Repr

/-- Virtual machine and machine-specific script data (`VmScript` in
`script.rs`).  The `AluVM` variant carries the bytecode as a byte list. -/
inductive VmScript where
  | Embedded : VmScript
  | AluVM : List Nat → VmScript
deriving DecidableEq, Repr

/-- `impl Default for VmScript`: the default VM selection is `Embedded`. -/
def VmScript.defaultValue : VmScript := VmScript.Embedded

/-- `VmScript::vm_type` from `script.rs`. -/
def VmScript.vm_type : VmScript → VmType
  | VmScript.Embedded => VmType.Embedded
  | VmScript.AluVM _ => VmType.AluVM

/-- VM and script overwrite rules by subschemata (`OverrideRules` in
`script.rs`). -/
inductive OverrideRules where
  | Deny : OverrideRules
  | AllowSameVm : OverrideRules
  | AllowAnyVm : OverrideRules
deriving DecidableEq, Repr

/-- Numeric representation tags of `OverrideRules` (`repr(u8)` discriminants). -/
def OverrideRules.tag : OverrideRules → Nat
  | OverrideRules.Deny => 0
  | OverrideRules.AllowSameVm => 1
  | OverrideRules.AllowAnyVm => 2

/-- `impl Default for OverrideRules`: the default policy is `Deny`. -/
def OverrideRules.defaultValue : OverrideRules := OverrideRules.Deny

/-- Modelled from the spec: the override predicate evaluated by the external
schema-compatibility checker over a parent script and a child script.
`Deny` rejects any `child != parent`; `AllowSameVm` accepts exactly when the
two VM types match; `AllowAnyVm` accepts any pair. -/
def overridePermits : OverrideRules → VmScript → VmScript → Bool
  | OverrideRules.Deny, parent, child => decide (child = parent)
  | OverrideRules.AllowSameVm, parent, child => decide (child.vm_type = parent.vm_type)
  | OverrideRules.AllowAnyVm, _, _ => true

/-- All possible procedures which may be called via the ABI table
(`Action` in `script.rs`). -/
inductive Action where
  | ValidateGenesis : Action
  | ValidateTransition : Action
  | ValidateExtension : Action
  | ValidateAssignment : Action
  | BlankTransition : Action
deriving DecidableEq, Repr

/-- The `repr(u8)` discriminants of `Action`. -/
def Action.tag : Action → Nat
  | Action.ValidateGenesis => 0
  | Action.ValidateTransition => 2
  | Action.ValidateExtension => 3
  | Action.ValidateAssignment => 4
  | Action.BlankTransition => 0x10

/-- Genesis-specific ABI table keys (`GenesisAction`). -/
inductive GenesisAction where
  | Validate : GenesisAction
deriving DecidableEq, Repr

/-- `impl From<GenesisAction> for Action`. -/
def GenesisAction.toAction : GenesisAction → Action
  | GenesisAction.Validate => Action.ValidateGenesis

/-- State extension-specific ABI table keys (`ExtensionAction`). -/
inductive ExtensionAction where
  | Validate : ExtensionAction
deriving DecidableEq, Repr

/-- `impl From<ExtensionAction> for Action`. -/
def ExtensionAction.toAction : ExtensionAction → Action
  | ExtensionAction.Validate => Action.ValidateExtension

/-- State transition-specific ABI table keys (`TransitionAction`). -/
inductive TransitionAction where
  | Validate : TransitionAction
  | GenerateBlank : TransitionAction
deriving DecidableEq, Repr

/-- `impl From<TransitionAction> for Action`. -/
def TransitionAction.toAction : TransitionAction → Action
  | TransitionAction.Validate => Action.ValidateTransition
  | TransitionAction.GenerateBlank => Action.BlankTransition

/-- ABI table keys for owned-right assignment entries (`AssignmentAction`). -/
inductive AssignmentAction where
  | Validate : AssignmentAction
deriving DecidableEq, Repr

/-- `impl From<AssignmentAction> for Action`. -/
def AssignmentAction.toAction : AssignmentAction → Action
  | AssignmentAction.Validate => Action.ValidateAssignment

/-- A context-specific action: one variant of one of the four per-context
action enumerations, tagged with its context. -/
inductive ContextAction where
  | genesis : GenesisAction → ContextAction
  | extensionCtx : ExtensionAction → ContextAction
  | transition : TransitionAction → ContextAction
  | assignment : AssignmentAction → ContextAction
deriving DecidableEq, Repr

/-- The unified conversion: dispatches each context-specific action through
its `From<...> for Action` implementation. -/
def ContextAction.toAction : ContextAction → Action
  | ContextAction.genesis a => a.toAction
  | ContextAction.extensionCtx a => a.toAction
  | ContextAction.transition a => a.toAction
  | ContextAction.assignment a => a.toAction

/-! ## Schema-level constants (src/schema/schema.rs) -/

/-- `TransitionType` is `u16`; its maximal value. -/
def transitionTypeMax : Nat := 2 ^ 16 - 1

/-- `pub const BLANK_TRANSITION_ID: u16 = TransitionType::MAX;` -/
def BLANK_TRANSITION_ID : Nat := transitionTypeMax

/-! ## Ordered-map infrastructure

`BTreeMap` and the bounded `TinyOrdMap`/`TinyOrdSet` collections are embedded
as association lists strictly sorted by key, carrying their invariants as
propositional fields. -/

/-- Key lookup in an association list (models `BTreeMap::get`). -/
def lookupKey {α : Type} (k : Nat) : List (Nat × α) → Option α
  | [] => none
  | (k₁, v) :: rest => if k = k₁ then some v else lookupKey k rest

theorem lookupKey_eq_none {α : Type} (k : Nat) (l : List (Nat × α))
    (h : k ∉ l.map Prod.fst) : lookupKey k l = none := by
  induction l with
  | nil => rfl
  | cons p rest ih =>
    simp only [List.map_cons, List.mem_cons, not_or] at h
    obtain ⟨h₁, h₂⟩ := h
    obtain ⟨k₁, v⟩ := p
    simp only [lookupKey, if_neg h₁]
    exact ih h₂

theorem lookupKey_of_mem {α : Type} (k : Nat) (v : α) (l : List (Nat × α))
    (hs : l.Pairwise (fun a b => a.1 < b.1)) (hm : (k, v) ∈ l) :
    lookupKey k l = some v := by
  induction l with
  | nil => cases hm
  | cons p rest ih =>
    obtain ⟨k₁, v₁⟩ := p
    rcases List.mem_cons.mp hm with h | h
    · injection h with h₁ h₂
      subst h₁; subst h₂
      simp [lookupKey]
    · have hk : k₁ < k := by
        have := (List.pairwise_cons.mp hs).1 (k, v) h
        simpa using this
      have hne : k ≠ k₁ := by omega
      simp only [lookupKey, if_neg hne]
      exact ih (List.pairwise_cons.mp hs).2 h

/-- Sorted insertion into a strictly-sorted association list; replaces the
value when the key is already present (models `BTreeMap::insert`). -/
def insertSorted {α : Type} (k : Nat) (v : α) : List (Nat × α) → List (Nat × α)
  | [] => [(k, v)]
  | (k₁, v₁) :: rest =>
    if k < k₁ then (k, v) :: (k₁, v₁) :: rest
    else if k = k₁ then (k, v) :: rest
    else (k₁, v₁) :: insertSorted k v rest

theorem mem_map_fst_insertSorted {α : Type} (k a : Nat) (v : α) (l : List (Nat × α)) :
    a ∈ (insertSorted k v l).map Prod.fst ↔ a = k ∨ a ∈ l.map Prod.fst := by
  induction l with
  | nil => simp [insertSorted]
  | cons p rest ih =>
    obtain ⟨k₁, v₁⟩ := p
    simp only [insertSorted]
    split_ifs with h₁ h₂
    · simp only [List.map_cons, List.mem_cons]
    · subst h₂
      simp only [List.map_cons, List.mem_cons]
      tauto
    · simp only [List.map_cons, List.mem_cons, ih]
      tauto

theorem pairwise_insertSorted {α : Type} (k : Nat) (v : α) (l : List (Nat × α))
    (hs : l.Pairwise (fun a b => a.1 < b.1)) :
    (insertSorted k v l).Pairwise (fun a b => a.1 < b.1) := by
  induction l with
  | nil => simp [insertSorted]
  | cons p rest ih =>
    obtain ⟨k₁, v₁⟩ := p
    obtain ⟨hhead, htail⟩ := List.pairwise_cons.mp hs
    simp only [insertSorted]
    split_ifs with h₁ h₂
    · refine List.pairwise_cons.mpr ⟨?_, hs⟩
      rintro ⟨b, w⟩ hb
      show k < b
      rcases List.mem_cons.mp hb with h | h
      · have hb₁ : b = k₁ := congrArg Prod.fst h
        omega
      · have := hhead (b, w) h
        simp only at this
        omega
    · subst h₂
      exact List.pairwise_cons.mpr ⟨hhead, htail⟩
    · have hk : k₁ < k := by omega
      refine List.pairwise_cons.mpr ⟨?_, ih htail⟩
      rintro ⟨b, w⟩ hb
      show k₁ < b
      have hmem : b ∈ (insertSorted k v rest).map Prod.fst :=
        List.mem_map.mpr ⟨(b, w), hb, rfl⟩
      rcases (mem_map_fst_insertSorted k b v rest).mp hmem with h | h
      · omega
      · obtain ⟨q, hq, hq2⟩ := List.mem_map.mp h
        have := hhead q hq
        simp only at this
        omega

theorem length_insertSorted_le {α : Type} (k : Nat) (v : α) (l : List (Nat × α)) :
    (insertSorted k v l).length ≤ l.length + 1 := by
  induction l with
  | nil => simp [insertSorted]
  | cons p rest ih =>
    obtain ⟨k₁, v₁⟩ := p
    by_cases h₁ : k < k₁
    · simp [insertSorted, h₁]
    · by_cases h₂ : k = k₁
      · simp [insertSorted, h₁, h₂]
      · simp only [insertSorted, if_neg h₁, if_neg h₂, List.length_cons]
        omega

theorem length_insertSorted_of_mem {α : Type} (k : Nat) (v : α) (l : List (Nat × α))
    (hs : l.Pairwise (fun a b => a.1 < b.1)) (h : k ∈ l.map Prod.fst) :
    (insertSorted k v l).length = l.length := by
  induction l with
  | nil => simp at h
  | cons p rest ih =>
    obtain ⟨k₁, v₁⟩ := p
    obtain ⟨hhead, htail⟩ := List.pairwise_cons.mp hs
    simp only [List.map_cons, List.mem_cons] at h
    by_cases h₁ : k < k₁
    · rcases h with h | h
      · exact absurd (h ▸ h₁) (lt_irrefl k)
      · obtain ⟨q, hq, rfl⟩ := List.mem_map.mp h
        have := hhead q hq
        omega
    · by_cases h₂ : k = k₁
      · simp [insertSorted, h₁, h₂]
      · simp only [insertSorted, if_neg h₁, if_neg h₂, List.length_cons]
        rcases h with h | h
        · exact absurd h h₂
        · simpa using ih htail h

theorem insertSorted_eq_append {α : Type} (k : Nat) (v : α) (l : List (Nat × α))
    (h : ∀ p ∈ l, p.1 < k) : insertSorted k v l = l ++ [(k, v)] := by
  induction l with
  | nil => rfl
  | cons p rest ih =>
    obtain ⟨k₁, v₁⟩ := p
    have hk : k₁ < k := by simpa using h (k₁, v₁) (List.mem_cons_self _ _)
    have h₁ : ¬ k < k₁ := by omega
    have h₂ : k ≠ k₁ := by omega
    simp only [insertSorted, if_neg h₁, if_neg h₂, List.cons_append, List.cons.injEq, true_and]
    exact ih fun p hp => h p (List.mem_cons_of_mem _ hp)

/-- The confinement bound of `Tiny` collections (`u8::MAX` elements). -/
def tinyMaxLen : Nat := 255

/-- A `TinyOrdMap` from `amplify::confinement`: an ordered map with at most
255 entries; keys here are the `u16` schema type identifiers. -/
structure TinyOrdMap (α : Type) where
  entries : List (Nat × α)
  sorted : entries.Pairwise (fun a b => a.1 < b.1)
  bounded : entries.length ≤ tinyMaxLen

theorem tinyOrdMap_entries_ext {α : Type} {m₁ m₂ : TinyOrdMap α}
    (h : m₁.entries = m₂.entries) : m₁ = m₂ := by
  cases m₁; cases m₂; cases h; rfl

/-- Keys of the map in ascending order. -/
def TinyOrdMap.keys {α : Type} (m : TinyOrdMap α) : List Nat := m.entries.map Prod.fst

/-- Lookup (`BTreeMap::get`). -/
def TinyOrdMap.get? {α : Type} (m : TinyOrdMap α) (k : Nat) : Option α :=
  lookupKey k m.entries

/-- The empty map. -/
def TinyOrdMap.empty {α : Type} : TinyOrdMap α :=
  ⟨[], List.Pairwise.nil, by simp [tinyMaxLen]⟩

theorem insertSorted_length_bound {α : Type} (k : Nat) (v : α) (l : List (Nat × α))
    (hs : l.Pairwise (fun a b => a.1 < b.1)) (hb : l.length ≤ tinyMaxLen)
    (h : k ∈ l.map Prod.fst ∨ l.length < tinyMaxLen) :
    (insertSorted k v l).length ≤ tinyMaxLen := by
  rcases h with h | h
  · rw [length_insertSorted_of_mem k v l hs h]; exact hb
  · have := length_insertSorted_le k v l
    omega

/-- Confined insertion (`amplify::confinement::Confined::insert`): fails —
returns `none` — exactly when the map is full and the key is new; otherwise
returns the updated map. -/
def TinyOrdMap.insert {α : Type} (m : TinyOrdMap α) (k : Nat) (v : α) :
    Option (TinyOrdMap α) :=
  if h : k ∈ m.keys ∨ m.entries.length < tinyMaxLen then
    some ⟨insertSorted k v m.entries, pairwise_insertSorted k v m.entries m.sorted,
      insertSorted_length_bound k v m.entries m.sorted m.bounded h⟩
  else none

/-- A `TinyOrdSet`: an ordered set with at most 255 elements. -/
structure TinyOrdSet where
  elems : List Nat
  sorted : elems.Pairwise (· < ·)
  bounded : elems.length ≤ tinyMaxLen

theorem tinyOrdSet_elems_ext {s₁ s₂ : TinyOrdSet} (h : s₁.elems = s₂.elems) : s₁ = s₂ := by
  cases s₁; cases s₂; cases h; rfl

/-- The empty set. -/
def TinyOrdSet.empty : TinyOrdSet := ⟨[], List.Pairwise.nil, by simp [tinyMaxLen]⟩

/-- An ABI table (`BTreeMap<ContextAction, EntryPoint>` from `script.rs`),
keyed by the action's `u8` discriminant with `u24` entry-point values. -/
structure AbiTable where
  entries : List (Nat × Nat)
  sorted : entries.Pairwise (fun a b => a.1 < b.1)

theorem abiTable_entries_ext {t₁ t₂ : AbiTable} (h : t₁.entries = t₂.entries) : t₁ = t₂ := by
  cases t₁; cases t₂; cases h; rfl

/-- The empty ABI table. -/
def AbiTable.empty : AbiTable := ⟨[], List.Pairwise.nil⟩

/-! ## Rights containers (src/contract/rights.rs) -/

/-- Modelled from the spec: `TypedAssignments` (defined outside the shown
core) is the state value attached to one owned-right type on one node,
opaque to this layer beyond being storable in a map value slot; embedded as
a list of opaque numeric values. -/
structure TypedAssignments where
  vals : List Nat
deriving DecidableEq, Repr

/-- Modelled from the spec: `EMPTY_ASSIGNMENTS` — the well-defined empty
`TypedAssignments` value returned for absent types. -/
def EMPTY_ASSIGNMENTS : TypedAssignments := ⟨[]⟩

/-- `OwnedRights`: mapping from `OwnedRightType` to `TypedAssignments`
(a `BTreeMap`, hence strictly sorted by key and unbounded). -/
structure OwnedRights where
  entries : List (Nat × TypedAssignments)
  sorted : entries.Pairwise (fun a b => a.1 < b.1)

/-- `OwnedRights::assignments_by_type`:
`self.0.get(&t).unwrap_or(&EMPTY_ASSIGNMENTS)`. -/
def OwnedRights.assignments_by_type (c : OwnedRights) (t : Nat) : TypedAssignments :=
  (lookupKey t c.entries).getD EMPTY_ASSIGNMENTS

/-! ## Merkle leaf records (src/contract/rights.rs) -/

/-- Modelled from the spec: `NodeId` — an ancestor node identifier (32-byte
content hash), totally ordered; embedded as `Nat`. -/
abbrev NodeId := Nat

/-- Modelled from the spec: `MerkleNode` — a Merkle-tree node hash from the
external commitment primitive, totally ordered; embedded as `Nat`. -/
abbrev MerkleNode := Nat

/-- `PublicRightsLeaf(pub PublicRightType)`. -/
structure PublicRightsLeaf where
  rightType : Nat
deriving DecidableEq, Repr

/-- `OwnedRightsLeaf(pub OwnedRightType, pub MerkleNode)`. -/
structure OwnedRightsLeaf where
  rightType : Nat
  node : MerkleNode
deriving DecidableEq, Repr

/-- `ParentPublicRightsLeaf(pub NodeId, pub PublicRightType)`. -/
structure ParentPublicRightsLeaf where
  nodeId : NodeId
  rightType : Nat
deriving DecidableEq, Repr

/-- `ParentOwnedRightsLeaf(pub NodeId, pub OwnedRightType, pub u16)`. -/
structure ParentOwnedRightsLeaf where
  nodeId : NodeId
  rightType : Nat
  index : Nat
deriving DecidableEq, Repr

/-- `derive(Ord)` on `PublicRightsLeaf`: compare the single field. -/
def PublicRightsLeaf.cmp (a b : PublicRightsLeaf) : Ordering :=
  compare a.rightType b.rightType

/-- `derive(Ord)` on `OwnedRightsLeaf`: lexicographic over the fields in
declaration order — type, then Merkle node. -/
def OwnedRightsLeaf.cmp (a b : OwnedRightsLeaf) : Ordering :=
  (compare a.rightType b.rightType).then (compare a.node b.node)

/-- `derive(Ord)` on `ParentPublicRightsLeaf`: lexicographic over the fields
in declaration order — node id, then type. -/
def ParentPublicRightsLeaf.cmp (a b : ParentPublicRightsLeaf) : Ordering :=
  (compare a.nodeId b.nodeId).then (compare a.rightType b.rightType)

/-- `derive(Ord)` on `ParentOwnedRightsLeaf`: lexicographic over the fields
in declaration order — node id, then type, then index. -/
def ParentOwnedRightsLeaf.cmp (a b : ParentOwnedRightsLeaf) : Ordering :=
  (compare a.nodeId b.nodeId).then
    ((compare a.rightType b.rightType).then (compare a.index b.index))

/-- The ordering the specification asserts for `ParentOwnedRightsLeaf`:
lexicographic over the tuple read as `(type, node-id, index)`. -/
def specParentOwnedRightsLeafCmp (a b : ParentOwnedRightsLeaf) : Ordering :=
  (compare a.rightType b.rightType).then
    ((compare a.nodeId b.nodeId).then (compare a.index b.index))

/-! ## Schema (src/schema/schema.rs) -/

/-- Modelled from the spec: `Occurrences` (defined outside the shown core) —
a declared minimum/maximum multiplicity constraint on a right type's
appearances in a node.  `blank_transition` uses the "zero or more" bound
`NoneOrMore`. -/
inductive Occurrences where
  | Once : Occurrences
  | NoneOrOnce : Occurrences
  | NoneOrMore : Occurrences
  | OnceOrMore : Occurrences
  | Exactly : Nat → Occurrences
  | Range : Nat → Nat → Occurrences
deriving DecidableEq, Repr

/-- Modelled from the spec: a global-state type declaration references the
external semantic type system; embedded as an opaque numeric identifier. -/
abbrev GlobalStateSchema := Nat

/-- Modelled from the spec: an owned-state type declaration (`StateSchema`)
describes the shape of the state payload; opaque to this core, embedded as a
numeric identifier. -/
abbrev StateSchema := Nat

/-- Modelled from the spec: the external semantic `TypeSystem`, opaque to
this core; embedded as its canonical encoding bytes. -/
abbrev TypeSystem := List Nat

/-- Modelled from the spec: `GenesisSchema` (defined outside the shown
core) — the per-node-kind schema for the genesis node: occurrence bounds for
global state and assignments, exposed valencies, and the genesis ABI table. -/
structure GenesisSchema where
  metadata : TinyOrdMap Occurrences
  assignments : TinyOrdMap Occurrences
  valencies : TinyOrdSet
  abi : AbiTable

/-- Modelled from the spec: `ExtensionSchema` — the per-kind schema for
state extensions; additionally declares which valencies it redeems. -/
structure ExtensionSchema where
  metadata : TinyOrdMap Occurrences
  redeems : TinyOrdSet
  assignments : TinyOrdMap Occurrences
  valencies : TinyOrdSet
  abi : AbiTable

/-- Modelled from the spec: `TransitionSchema` — the per-kind schema for
state transitions, with input-side (`inputs`) and output-side
(`assignments`) occurrence bounds per owned-right type, as used by
`Schema::blank_transition` in schema.rs. -/
structure TransitionSchema where
  metadata : TinyOrdMap Occurrences
  inputs : TinyOrdMap Occurrences
  assignments : TinyOrdMap Occurrences
  valencies : TinyOrdSet
  abi : AbiTable

/-- `TransitionSchema::default()`: all collections empty. -/
def TransitionSchema.defaultValue : TransitionSchema :=
  ⟨TinyOrdMap.empty, TinyOrdMap.empty, TinyOrdMap.empty, TinyOrdSet.empty, AbiTable.empty⟩

/-- Modelled from the spec: `Script` bundles the VM selection (and
validation logic) embedded in a schema. -/
structure Script where
  vm_script : VmScript
  override_rules : OverrideRules

/-- `Schema<Root>` from schema.rs: format version, optional parent schema,
the declared type catalogs, per-node-kind schemas, the external type system
and the validation script. -/
structure Schema (Root : Type) where
  ffv : Nat
  subset_of : Option Root
  global_types : TinyOrdMap GlobalStateSchema
  owned_types : TinyOrdMap StateSchema
  valency_types : TinyOrdSet
  genesis : GenesisSchema
  extensions : TinyOrdMap ExtensionSchema
  transitions : TinyOrdMap TransitionSchema
  type_system : TypeSystem
  script : Script

/-- `pub type RootSchema = Schema<()>;` -/
abbrev RootSchema := Schema Unit

/-- `pub type SubSchema = Schema<RootSchema>;` -/
abbrev SubSchema := Schema RootSchema

/-- The loop body of `Schema::blank_transition`: insert
`Occurrences::NoneOrMore` at `id` into both `inputs` and `assignments`,
discarding a confinement failure exactly as the source's `.ok()` does. -/
def blankStep (sch : TransitionSchema) (id : Nat) : TransitionSchema :=
  { sch with
    inputs := (sch.inputs.insert id Occurrences.NoneOrMore).getD sch.inputs
    assignments := (sch.assignments.insert id Occurrences.NoneOrMore).getD sch.assignments }

/-- `Schema::blank_transition` from schema.rs: start from the default
transition schema and insert the "zero or more" bound for every declared
owned type, on both sides.  Total by construction — no failure path. -/
def Schema.blank_transition {Root : Type} (s : Schema Root) : TransitionSchema :=
  s.owned_types.keys.foldl blankStep TransitionSchema.defaultValue

/-! ## Canonical content encoding and `schema_id`

The external commitment primitive turns the canonical (strict) encoding of
a schema into a fixed-size digest.  Modelled from the spec: the encoding is
deterministic and length-prefixed, and the commitment is assumed
collision-resistant — identical content gives an identical id, any content
difference a different id — so the digest is modelled by the tagged
canonical encoding itself. -/

/-- Length-prefix one encoded block. -/
def lp (l : List Nat) : List Nat := l.length :: l

/-- Encode a list of items, each block length-prefixed. -/
def encList {α : Type} (f : α → List Nat) : List α → List Nat
  | [] => []
  | a :: rest => lp (f a) ++ encList f rest

/-- Encode one map entry: the key followed by the encoded value. -/
def encEntry {α : Type} (f : α → List Nat) (p : Nat × α) : List Nat :=
  p.1 :: f p.2

/-- Encode an ordered map through its canonical ascending entry list. -/
def encTOM {α : Type} (f : α → List Nat) (m : TinyOrdMap α) : List Nat :=
  encList (encEntry f) m.entries

/-- Encode an occurrence bound by tag and arguments. -/
def encOccurrences : Occurrences → List Nat
  | Occurrences.Once => [0]
  | Occurrences.NoneOrOnce => [1]
  | Occurrences.NoneOrMore => [2]
  | Occurrences.OnceOrMore => [3]
  | Occurrences.Exactly n => [4, n]
  | Occurrences.Range lo hi => [5, lo, hi]

/-- Encode an ABI table through its canonical ascending entry list. -/
def encAbiTable (t : AbiTable) : List Nat :=
  encList (encEntry fun n => [n]) t.entries

/-- Encode a genesis schema field by field. -/
def encGenesis (g : GenesisSchema) : List Nat :=
  lp (encTOM encOccurrences g.metadata) ++
    (lp (encTOM encOccurrences g.assignments) ++
      (lp g.valencies.elems ++ lp (encAbiTable g.abi)))

/-- Encode an extension schema field by field. -/
def encExtension (e : ExtensionSchema) : List Nat :=
  lp (encTOM encOccurrences e.metadata) ++
    (lp e.redeems.elems ++
      (lp (encTOM encOccurrences e.assignments) ++
        (lp e.valencies.elems ++ lp (encAbiTable e.abi))))

/-- Encode a transition schema field by field. -/
def encTransition (t : TransitionSchema) : List Nat :=
  lp (encTOM encOccurrences t.metadata) ++
    (lp (encTOM encOccurrences t.inputs) ++
      (lp (encTOM encOccurrences t.assignments) ++
        (lp t.valencies.elems ++ lp (encAbiTable t.abi))))

/-- Encode a VM script: numeric variant tag, then the bytecode for AluVM
(`by_value, repr = u8` strict encoding). -/
def encVmScript : VmScript → List Nat
  | VmScript.Embedded => [0]
  | VmScript.AluVM code => 1 :: code

/-- Encode the schema script. -/
def encScript (sc : Script) : List Nat :=
  lp (encVmScript sc.vm_script) ++ lp [sc.override_rules.tag]

/-- Encode an optional value with a presence tag. -/
def encOption {α : Type} (f : α → List Nat) : Option α → List Nat
  | none => [0]
  | some x => 1 :: f x

/-- Encode a whole schema field by field, given the encoder of the root
parameter. -/
def encSchema {Root : Type} (fr : Root → List Nat) (s : Schema Root) : List Nat :=
  lp [s.ffv] ++
    (lp (encOption fr s.subset_of) ++
      (lp (encTOM (fun n => [n]) s.global_types) ++
        (lp (encTOM (fun n => [n]) s.owned_types) ++
          (lp s.valency_types.elems ++
            (lp (encGenesis s.genesis) ++
              (lp (encTOM encExtension s.extensions) ++
                (lp (encTOM encTransition s.transitions) ++
                  (lp s.type_system ++ lp (encScript s.script)))))))))

/-- `SchemaId`: the content commitment of a schema (a 32-byte digest in the
source; here the tagged canonical encoding, per the collision-resistance
assumption). -/
abbrev SchemaId := List Nat

/-- The commitment tag `urn:lnpbp:rgb:schema:v01#202302A` from the
`CommitmentId` implementation in schema.rs, as byte values. -/
def schemaCommitmentTag : List Nat :=
  "urn:lnpbp:rgb:schema:v01#202302A".toList.map Char.toNat

/-- `Schema::schema_id` / `commitment_id`: the tagged commitment to the
schema's canonical encoding. -/
def Schema.schema_id {Root : Type} (fr : Root → List Nat) (s : Schema Root) : SchemaId :=
  schemaCommitmentTag ++ encSchema fr s

/-- The (trivial) encoder of the `()` root parameter of a root schema. -/
def encUnit : Unit → List Nat := fun _ => []

/-- Lexicographic byte comparison: the derived `Ord` of the 32-byte
`SchemaId` wrapper. -/
def compareBytes : List Nat → List Nat → Ordering
  | [], [] => Ordering.eq
  | [], _ :: _ => Ordering.lt
  | _ :: _, [] => Ordering.gt
  | x :: xs, y :: ys => (compare x y).then (compareBytes xs ys)

/-- `impl PartialEq for Schema`:
`fn eq(&self, other) { self.schema_id() == other.schema_id() }`. -/
def Schema.beq {Root : Type} (fr : Root → List Nat) (a b : Schema Root) : Bool :=
  Schema.schema_id fr a == Schema.schema_id fr b

/-- `impl Ord for Schema`:
`fn cmp(&self, other) { self.schema_id().cmp(&other.schema_id()) }`. -/
def Schema.cmp {Root : Type} (fr : Root → List Nat) (a b : Schema Root) : Ordering :=
  compareBytes (Schema.schema_id fr a) (Schema.schema_id fr b)

/-! ## Baid58 rendering of a 32-byte identifier

Modelled from the spec: the checksummed human-readable identifier encoding
(the external `baid58` collaborator) renders a 32-byte id as a compact
base-58 string — one leading zero-symbol `'1'` per leading zero byte — plus
a deterministic three-word mnemonic checksum, and round-trips exactly.
These functions operate on the raw 32-byte payload (`Bytes32`) of a
`SchemaId`, embedded as a list of byte values. -/

/-- The base-58 alphabet; `'1'` is the zero-symbol. -/
def b58Alphabet : List Char :=
  ['1', '2', '3', '4', '5', '6', '7', '8', '9',
   'A', 'B', 'C', 'D', 'E', 'F', 'G', 'H', 'J', 'K', 'L', 'M', 'N',
   'P', 'Q', 'R', 'S', 'T', 'U', 'V', 'W', 'X', 'Y', 'Z',
   'a', 'b', 'c', 'd', 'e', 'f', 'g', 'h', 'i', 'j', 'k', 'm', 'n',
   'o', 'p', 'q', 'r', 's', 't', 'u', 'v', 'w', 'x', 'y', 'z']

/-- The symbol of one base-58 digit. -/
def b58Char (d : Nat) : Char := b58Alphabet.getD d ' '

/-- The digit value of one symbol; `none` on a character outside the
alphabet. -/
def b58Val (c : Char) : Option Nat :=
  b58Alphabet.findIdx? (fun x => decide (x = c))

/-- Count of leading elements satisfying a predicate. -/
def countLeading {α : Type} (p : α → Bool) : List α → Nat
  | [] => 0
  | a :: rest => if p a then countLeading p rest + 1 else 0

/-- The big-endian numeric value of a byte string. -/
def beValue (b : List Nat) : Nat := Nat.ofDigits 256 b.reverse

/-- `ToBaid58::to_baid58_string` (modelled from the spec): one `'1'` per
leading zero byte, then the base-58 digits of the payload value, most
significant first. -/
def to_baid58_string (b : List Nat) : List Char :=
  List.replicate (countLeading (fun x => decide (x = 0)) b) '1' ++
    (Nat.digits 58 (beValue b)).reverse.map b58Char

/-- Decode a run of base-58 symbols into digit values; `none` if any symbol
is outside the alphabet. -/
def decodeDigits : List Char → Option (List Nat)
  | [] => some []
  | c :: rest =>
    match b58Val c, decodeDigits rest with
    | some d, some ds => some (d :: ds)
    | _, _ => none

/-- `SchemaId::from_str` / `FromBaid58::from_baid58_str` (modelled from the
spec): leading zero-symbols become leading zero bytes, the remaining
symbols are decoded as a base-58 number, and the payload must be exactly
32 bytes. -/
def from_baid58_str (s : List Char) : Option (List Nat) :=
  let k := countLeading (fun c => decide (c = '1')) s
  match decodeDigits (s.drop k) with
  | none => none
  | some ds =>
    let payload := List.replicate k 0 ++ (Nat.digits 256 (Nat.ofDigits 58 ds.reverse)).reverse
    if payload.length = 32 then some payload else none

/-- Modelled from the spec: the fixed wordlist backing the mnemonic
checksum. -/
def mnemonicWordlist : List String :=
  ["abandon", "basket", "cellar", "damage", "eagle", "fabric", "garden",
   "harbor", "island", "jacket", "kernel", "ladder", "magnet", "napkin",
   "orchid", "pepper"]

/-- `SchemaId::mnemonic_checksum` (modelled from the spec): three words
selected deterministically from the fixed wordlist by a checksum folded
over the payload bytes. -/
def mnemonic_checksum (b : List Nat) : List String :=
  let h := b.foldl (fun acc x => (acc * 256 + x) % 4096) 0
  [mnemonicWordlist.getD (h % 16) "",
   mnemonicWordlist.getD (h / 16 % 16) "",
   mnemonicWordlist.getD (h / 256 % 16) ""]

/-- Example container for the C2 witness. -/
def exampleOwnedRights : OwnedRights :=
  ⟨[(1, ⟨[7]⟩), (3, ⟨[9, 10]⟩)], by simp⟩

/-- Example root schema declaring owned types 1 and 2, for the C1 witness. -/
def exampleRootSchema : RootSchema where
  ffv := 0
  subset_of := none
  global_types := TinyOrdMap.empty
  owned_types := ⟨[(1, 0), (2, 0)], by simp, by simp [tinyMaxLen]⟩
  valency_types := TinyOrdSet.empty
  genesis := ⟨TinyOrdMap.empty, TinyOrdMap.empty, TinyOrdSet.empty, AbiTable.empty⟩
  extensions := TinyOrdMap.empty
  transitions := TinyOrdMap.empty
  type_system := []
  script := ⟨VmScript.Embedded, OverrideRules.Deny⟩

/-- A second example root schema, differing from `exampleRootSchema` in a
single declared field (the format version), for the C6 witness. -/
def exampleRootSchemaB : RootSchema :=
  { exampleRootSchema with ffv := 1 }

/-! ## Theorems about rights containers and leaf records -/

/-- C2: `assignments_by_type` is total — it is a function defined on every
container and every type; when `t` is a key of the backing map it returns
the stored `TypedAssignments` value, and when `t` is absent it returns the
well-defined empty value.  No error or panic path exists. -/
theorem assignments_by_type_total (c : OwnedRights) (t : Nat) :
    (∀ v, (t, v) ∈ c.entries → c.assignments_by_type t = v) ∧
    (t ∉ c.entries.map Prod.fst → c.assignments_by_type t = EMPTY_ASSIGNMENTS) := by
  constructor
  · intro v hv
    unfold OwnedRights.assignments_by_type
    rw [lookupKey_of_mem t v c.entries c.sorted hv]
    rfl
  · intro h
    unfold OwnedRights.assignments_by_type
    rw [lookupKey_eq_none t c.entries h]
    rfl

/-- Witness for C2: the totality characterisation evaluated on a concrete
container, at a present and at an absent type. -/
theorem assignments_by_type_total_witness :
    exampleOwnedRights.assignments_by_type 1 = ⟨[7]⟩ ∧
      exampleOwnedRights.assignments_by_type 2 = EMPTY_ASSIGNMENTS :=
  ⟨(assignments_by_type_total exampleOwnedRights 1).1 ⟨[7]⟩ (by simp [exampleOwnedRights]),
    (assignments_by_type_total exampleOwnedRights 2).2 (by simp [exampleOwnedRights])⟩

/-- `Ordering.then x y` is `lt` iff `x` is `lt`, or `x` is `eq` and `y` is `lt`. -/
theorem thenCmp_eq_lt {x y : Ordering} :
    x.then y = Ordering.lt ↔ x = Ordering.lt ∨ (x = Ordering.eq ∧ y = Ordering.lt) := by
  cases x <;> simp [Ordering.then]

/-- `Ordering.then x y` is `eq` iff both are `eq`. -/
theorem thenCmp_eq_eq {x y : Ordering} :
    x.then y = Ordering.eq ↔ x = Ordering.eq ∧ y = Ordering.eq := by
  cases x <;> simp [Ordering.then]

/-- Counterexample to C5 as stated: for `ParentOwnedRightsLeaf` the derived
order compares the node id first, while the claim's tuple form
`(type, node-id, index)` compares the type first; the two orders disagree on
the pair (node 1, type 2, index 0) and (node 2, type 1, index 0). -/
theorem parentOwnedRightsLeaf_order_counterexample :
    ParentOwnedRightsLeaf.cmp ⟨1, 2, 0⟩ ⟨2, 1, 0⟩ = Ordering.lt ∧
      specParentOwnedRightsLeafCmp ⟨1, 2, 0⟩ ⟨2, 1, 0⟩ = Ordering.gt := by
  constructor <;> rfl

/-- C5 (amended): each leaf record is a flat tuple totally ordered
lexicographically over its fields in declaration order — `(type)` for
`PublicRightsLeaf`, `(type, merkle-node)` for `OwnedRightsLeaf`, and
`(node-id, type[, index])` for the parent leaves; comparison yields `eq`
exactly on equal leaves, so any container content has a unique canonical
leaf sequence. -/
theorem leaf_orders_lexicographic :
    (∀ a b : PublicRightsLeaf,
      (a.cmp b = Ordering.eq ↔ a = b) ∧
      (a.cmp b = Ordering.lt ↔ a.rightType < b.rightType)) ∧
    (∀ a b : OwnedRightsLeaf,
      (a.cmp b = Ordering.eq ↔ a = b) ∧
      (a.cmp b = Ordering.lt ↔ a.rightType < b.rightType ∨
        (a.rightType = b.rightType ∧ a.node < b.node))) ∧
    (∀ a b : ParentPublicRightsLeaf,
      (a.cmp b = Ordering.eq ↔ a = b) ∧
      (a.cmp b = Ordering.lt ↔ a.nodeId < b.nodeId ∨
        (a.nodeId = b.nodeId ∧ a.rightType < b.rightType))) ∧
    (∀ a b : ParentOwnedRightsLeaf,
      (a.cmp b = Ordering.eq ↔ a = b) ∧
      (a.cmp b = Ordering.lt ↔ a.nodeId < b.nodeId ∨
        (a.nodeId = b.nodeId ∧ (a.rightType < b.rightType ∨
          (a.rightType = b.rightType ∧ a.index < b.index))))) := by
  refine ⟨?_, ?_, ?_, ?_⟩
  · rintro ⟨t₁⟩ ⟨t₂⟩
    simp [PublicRightsLeaf.cmp, Nat.compare_eq_eq, Nat.compare_eq_lt]
  · rintro ⟨t₁, n₁⟩ ⟨t₂, n₂⟩
    simp [OwnedRightsLeaf.cmp, thenCmp_eq_eq, thenCmp_eq_lt,
      Nat.compare_eq_eq, Nat.compare_eq_lt]
  · rintro ⟨i₁, t₁⟩ ⟨i₂, t₂⟩
    simp [ParentPublicRightsLeaf.cmp, thenCmp_eq_eq, thenCmp_eq_lt,
      Nat.compare_eq_eq, Nat.compare_eq_lt]
  · rintro ⟨i₁, t₁, x₁⟩ ⟨i₂, t₂, x₂⟩
    simp [ParentOwnedRightsLeaf.cmp, thenCmp_eq_eq, thenCmp_eq_lt,
      Nat.compare_eq_eq, Nat.compare_eq_lt]

/-- Witness for C5 (amended): the characterisation evaluated at concrete
leaves. -/
theorem leaf_orders_lexicographic_witness :
    ParentOwnedRightsLeaf.cmp ⟨1, 2, 3⟩ ⟨1, 2, 3⟩ = Ordering.eq ∧
      ParentOwnedRightsLeaf.cmp ⟨1, 2, 0⟩ ⟨2, 1, 0⟩ = Ordering.lt :=
  ⟨(leaf_orders_lexicographic.2.2.2 ⟨1, 2, 3⟩ ⟨1, 2, 3⟩).1.mpr rfl,
    (leaf_orders_lexicographic.2.2.2 ⟨1, 2, 0⟩ ⟨2, 1, 0⟩).2.mpr (by decide)⟩

/-! ## Injectivity of the canonical encoding -/

theorem lp_inj {a b : List Nat} (h : lp a = lp b) : a = b :=
  (List.cons.injEq .. ▸ h : _ ∧ _).2

theorem lp_append_inj {a b r s : List Nat} (h : lp a ++ r = lp b ++ s) :
    a = b ∧ r = s := by
  simp only [lp, List.cons_append, List.cons.injEq] at h
  exact List.append_inj h.2 h.1

theorem encList_inj {α : Type} (f : α → List Nat)
    (hf : ∀ x y, f x = f y → x = y) :
    ∀ l₁ l₂ : List α, encList f l₁ = encList f l₂ → l₁ = l₂
  | [], [], _ => rfl
  | [], _ :: _, h => by simp [encList, lp] at h
  | _ :: _, [], h => by simp [encList, lp] at h
  | a :: r, b :: s, h => by
    simp only [encList] at h
    obtain ⟨h₁, h₂⟩ := lp_append_inj h
    rw [hf a b h₁, encList_inj f hf r s h₂]

theorem encEntry_inj {α : Type} (f : α → List Nat)
    (hf : ∀ x y, f x = f y → x = y) :
    ∀ p q : Nat × α, encEntry f p = encEntry f q → p = q := by
  rintro ⟨k₁, v₁⟩ ⟨k₂, v₂⟩ h
  simp only [encEntry, List.cons.injEq] at h
  obtain ⟨h₁, h₂⟩ := h
  subst h₁
  rw [hf v₁ v₂ h₂]

theorem encTOM_inj {α : Type} (f : α → List Nat)
    (hf : ∀ x y, f x = f y → x = y) (m₁ m₂ : TinyOrdMap α)
    (h : encTOM f m₁ = encTOM f m₂) : m₁ = m₂ :=
  tinyOrdMap_entries_ext (encList_inj (encEntry f) (encEntry_inj f hf) m₁.entries m₂.entries h)

theorem natSingleton_inj : ∀ x y : Nat, [x] = [y] → x = y := by
  intro x y h
  simpa using h

theorem encOccurrences_inj :
    ∀ x y : Occurrences, encOccurrences x = encOccurrences y → x = y := by
  intro x y h
  cases x <;> cases y <;> simp_all [encOccurrences]

theorem encAbiTable_inj (t₁ t₂ : AbiTable)
    (h : encAbiTable t₁ = encAbiTable t₂) : t₁ = t₂ :=
  abiTable_entries_ext
    (encList_inj (encEntry fun n => [n]) (encEntry_inj _ natSingleton_inj)
      t₁.entries t₂.entries h)

theorem encGenesis_inj : ∀ g₁ g₂ : GenesisSchema,
    encGenesis g₁ = encGenesis g₂ → g₁ = g₂ := by
  rintro ⟨m₁, a₁, v₁, b₁⟩ ⟨m₂, a₂, v₂, b₂⟩ h
  simp only [encGenesis] at h
  obtain ⟨h₁, h⟩ := lp_append_inj h
  obtain ⟨h₂, h⟩ := lp_append_inj h
  obtain ⟨h₃, h₄⟩ := lp_append_inj h
  have e₁ := encTOM_inj encOccurrences encOccurrences_inj _ _ h₁
  have e₂ := encTOM_inj encOccurrences encOccurrences_inj _ _ h₂
  have e₃ := tinyOrdSet_elems_ext h₃
  have e₄ := encAbiTable_inj _ _ (lp_inj h₄)
  simp only at e₁ e₂ e₃ e₄
  rw [e₁, e₂, e₃, e₄]

theorem encExtension_inj : ∀ e₁ e₂ : ExtensionSchema,
    encExtension e₁ = encExtension e₂ → e₁ = e₂ := by
  rintro ⟨m₁, r₁, a₁, v₁, b₁⟩ ⟨m₂, r₂, a₂, v₂, b₂⟩ h
  simp only [encExtension] at h
  obtain ⟨h₁, h⟩ := lp_append_inj h
  obtain ⟨h₂, h⟩ := lp_append_inj h
  obtain ⟨h₃, h⟩ := lp_append_inj h
  obtain ⟨h₄, h₅⟩ := lp_append_inj h
  have e₁ := encTOM_inj encOccurrences encOccurrences_inj _ _ h₁
  have e₂ := tinyOrdSet_elems_ext h₂
  have e₃ := encTOM_inj encOccurrences encOccurrences_inj _ _ h₃
  have e₄ := tinyOrdSet_elems_ext h₄
  have e₅ := encAbiTable_inj _ _ (lp_inj h₅)
  simp only at e₁ e₂ e₃ e₄ e₅
  rw [e₁, e₂, e₃, e₄, e₅]

theorem encTransition_inj : ∀ t₁ t₂ : TransitionSchema,
    encTransition t₁ = encTransition t₂ → t₁ = t₂ := by
  rintro ⟨m₁, i₁, a₁, v₁, b₁⟩ ⟨m₂, i₂, a₂, v₂, b₂⟩ h
  simp only [encTransition] at h
  obtain ⟨h₁, h⟩ := lp_append_inj h
  obtain ⟨h₂, h⟩ := lp_append_inj h
  obtain ⟨h₃, h⟩ := lp_append_inj h
  obtain ⟨h₄, h₅⟩ := lp_append_inj h
  have e₁ := encTOM_inj encOccurrences encOccurrences_inj _ _ h₁
  have e₂ := encTOM_inj encOccurrences encOccurrences_inj _ _ h₂
  have e₃ := encTOM_inj encOccurrences encOccurrences_inj _ _ h₃
  have e₄ := tinyOrdSet_elems_ext h₄
  have e₅ := encAbiTable_inj _ _ (lp_inj h₅)
  simp only at e₁ e₂ e₃ e₄ e₅
  rw [e₁, e₂, e₃, e₄, e₅]

theorem encVmScript_inj : ∀ x y : VmScript, encVmScript x = encVmScript y → x = y := by
  intro x y h
  cases x <;> cases y <;> simp_all [encVmScript]

theorem overrideRules_tag_inj :
    ∀ x y : OverrideRules, x.tag = y.tag → x = y := by
  intro x y h
  cases x <;> cases y <;> simp_all [OverrideRules.tag]

theorem encScript_inj : ∀ s₁ s₂ : Script, encScript s₁ = encScript s₂ → s₁ = s₂ := by
  rintro ⟨v₁, o₁⟩ ⟨v₂, o₂⟩ h
  simp only [encScript] at h
  obtain ⟨h₁, h₂⟩ := lp_append_inj h
  have e₁ := encVmScript_inj _ _ h₁
  have e₂ := overrideRules_tag_inj _ _ (natSingleton_inj _ _ (lp_inj h₂))
  simp only at e₁ e₂
  rw [e₁, e₂]

theorem encOption_inj {α : Type} (f : α → List Nat)
    (hf : ∀ x y, f x = f y → x = y) :
    ∀ o₁ o₂ : Option α, encOption f o₁ = encOption f o₂ → o₁ = o₂ := by
  intro o₁ o₂ h
  cases o₁ <;> cases o₂
  · rfl
  · simp [encOption] at h
  · simp [encOption] at h
  · simp only [encOption, List.cons.injEq] at h
    exact congrArg some (hf _ _ h.2)

theorem schema_fields_ext {Root : Type} {a b : Schema Root}
    (h₁ : a.ffv = b.ffv) (h₂ : a.subset_of = b.subset_of)
    (h₃ : a.global_types = b.global_types) (h₄ : a.owned_types = b.owned_types)
    (h₅ : a.valency_types = b.valency_types) (h₆ : a.genesis = b.genesis)
    (h₇ : a.extensions = b.extensions) (h₈ : a.transitions = b.transitions)
    (h₉ : a.type_system = b.type_system) (h₁₀ : a.script = b.script) : a = b := by
  cases a
  cases b
  simp only [Schema.mk.injEq]
  exact ⟨h₁, h₂, h₃, h₄, h₅, h₆, h₇, h₈, h₉, h₁₀⟩

theorem encSchema_inj {Root : Type} (fr : Root → List Nat)
    (hfr : ∀ x y, fr x = fr y → x = y) (a b : Schema Root)
    (h : encSchema fr a = encSchema fr b) : a = b := by
  unfold encSchema at h
  obtain ⟨h₁, h⟩ := lp_append_inj h
  obtain ⟨h₂, h⟩ := lp_append_inj h
  obtain ⟨h₃, h⟩ := lp_append_inj h
  obtain ⟨h₄, h⟩ := lp_append_inj h
  obtain ⟨h₅, h⟩ := lp_append_inj h
  obtain ⟨h₆, h⟩ := lp_append_inj h
  obtain ⟨h₇, h⟩ := lp_append_inj h
  obtain ⟨h₈, h⟩ := lp_append_inj h
  obtain ⟨h₉, h₁₀⟩ := lp_append_inj h
  exact schema_fields_ext
    (natSingleton_inj _ _ h₁)
    (encOption_inj fr hfr _ _ h₂)
    (encTOM_inj _ natSingleton_inj _ _ h₃)
    (encTOM_inj _ natSingleton_inj _ _ h₄)
    (tinyOrdSet_elems_ext h₅)
    (encGenesis_inj _ _ h₆)
    (encTOM_inj _ encExtension_inj _ _ h₇)
    (encTOM_inj _ encTransition_inj _ _ h₈)
    h₉
    (encScript_inj _ _ (lp_inj h₁₀))

/-! ## Theorems about schema identity -/

/-- C6: `schema_id` is a deterministic pure function of the schema's declared
content — structurally equal schemas have equal ids — and, under the
commitment primitive's collision-resistance assumption modelled by the
canonical encoding, any difference in the declared content (in particular a
change to any single declared field) yields a different `SchemaId`; for
root schemas and subschemas alike. -/
theorem schema_id_deterministic_and_injective :
    (∀ a b : RootSchema,
      Schema.schema_id encUnit a = Schema.schema_id encUnit b ↔ a = b) ∧
    (∀ a b : SubSchema,
      Schema.schema_id (Schema.schema_id encUnit) a
          = Schema.schema_id (Schema.schema_id encUnit) b ↔ a = b) := by
  have hUnit : ∀ x y : Unit, encUnit x = encUnit y → x = y := by
    intro x y _
    rfl
  have hRoot : ∀ a b : RootSchema,
      Schema.schema_id encUnit a = Schema.schema_id encUnit b → a = b := by
    intro a b h
    exact encSchema_inj encUnit hUnit a b (List.append_cancel_left h)
  refine ⟨fun a b => ⟨hRoot a b, fun h => by rw [h]⟩, fun a b => ⟨?_, fun h => by rw [h]⟩⟩
  intro h
  exact encSchema_inj (Schema.schema_id encUnit) hRoot a b (List.append_cancel_left h)

/-- Witness for C6: determinism at a concrete schema, and a different id
after changing the single declared field in which `exampleRootSchemaB`
differs from `exampleRootSchema`. -/
theorem schema_id_deterministic_and_injective_witness :
    Schema.schema_id encUnit exampleRootSchema = Schema.schema_id encUnit exampleRootSchema ∧
      Schema.schema_id encUnit exampleRootSchema ≠ Schema.schema_id encUnit exampleRootSchemaB :=
  ⟨(schema_id_deterministic_and_injective.1 exampleRootSchema exampleRootSchema).mpr rfl,
    fun h => by
      have h₂ := (schema_id_deterministic_and_injective.1 exampleRootSchema
        exampleRootSchemaB).mp h
      have h₃ := congrArg Schema.ffv h₂
      simp [exampleRootSchema, exampleRootSchemaB] at h₃⟩

/-- C3: for any two schemas of the same root kind, the embedded `PartialEq`
decides equality exactly by comparing `schema_id`s, and the embedded `Ord`
comparison equals the comparison of the two `schema_id`s — identity-based,
not structural, comparison. -/
theorem schema_eq_and_ord_by_schema_id (Root : Type) (fr : Root → List Nat)
    (a b : Schema Root) :
    (Schema.beq fr a b = true ↔ Schema.schema_id fr a = Schema.schema_id fr b) ∧
    Schema.cmp fr a b = compareBytes (Schema.schema_id fr a) (Schema.schema_id fr b) := by
  constructor
  · simp [Schema.beq]
  · rfl

/-- Witness for C3: the characterisation evaluated at a concrete schema. -/
theorem schema_eq_and_ord_by_schema_id_witness :
    Schema.beq encUnit exampleRootSchema exampleRootSchema = true :=
  (schema_eq_and_ord_by_schema_id Unit encUnit exampleRootSchema exampleRootSchema).1.mpr rfl

/-! ## Theorems about blank transitions -/

theorem lookupKey_map_const {α : Type} (t : Nat) (v : α) (ks : List Nat) :
    lookupKey t (ks.map fun k => (k, v)) = if t ∈ ks then some v else none := by
  induction ks with
  | nil => simp [lookupKey]
  | cons k rest ih =>
    simp only [List.map_cons, lookupKey]
    by_cases h : t = k
    · simp [h]
    · simp [h, ih]

theorem blankStep_inputs_entries (sch : TransitionSchema) (k : Nat)
    (hlt : sch.inputs.entries.length < tinyMaxLen) :
    (blankStep sch k).inputs.entries
      = insertSorted k Occurrences.NoneOrMore sch.inputs.entries := by
  show ((sch.inputs.insert k Occurrences.NoneOrMore).getD sch.inputs).entries = _
  unfold TinyOrdMap.insert
  rw [dif_pos (Or.inr hlt)]
  rfl

theorem blankStep_assignments_entries (sch : TransitionSchema) (k : Nat)
    (hlt : sch.assignments.entries.length < tinyMaxLen) :
    (blankStep sch k).assignments.entries
      = insertSorted k Occurrences.NoneOrMore sch.assignments.entries := by
  show ((sch.assignments.insert k Occurrences.NoneOrMore).getD sch.assignments).entries = _
  unfold TinyOrdMap.insert
  rw [dif_pos (Or.inr hlt)]
  rfl

/-- Folding the `blank_transition` loop body over a strictly ascending key
list appends the "zero or more" entry for each key, on both sides, and
leaves every other field untouched. -/
theorem foldl_blankStep_spec (ks : List Nat) :
    ∀ sch : TransitionSchema,
      ks.Pairwise (· < ·) →
      (∀ p ∈ sch.inputs.entries, ∀ k ∈ ks, p.1 < k) →
      (∀ p ∈ sch.assignments.entries, ∀ k ∈ ks, p.1 < k) →
      sch.inputs.entries.length + ks.length ≤ tinyMaxLen →
      sch.assignments.entries.length + ks.length ≤ tinyMaxLen →
      (ks.foldl blankStep sch).inputs.entries
          = sch.inputs.entries ++ ks.map (fun k => (k, Occurrences.NoneOrMore)) ∧
      (ks.foldl blankStep sch).assignments.entries
          = sch.assignments.entries ++ ks.map (fun k => (k, Occurrences.NoneOrMore)) ∧
      (ks.foldl blankStep sch).metadata = sch.metadata ∧
      (ks.foldl blankStep sch).valencies = sch.valencies ∧
      (ks.foldl blankStep sch).abi = sch.abi := by
  induction ks with
  | nil =>
    intro sch _ _ _ _ _
    simp
  | cons k rest ih =>
    intro sch hks hin hassign hlen1 hlen2
    obtain ⟨hk_rest, hrest⟩ := List.pairwise_cons.mp hks
    have hlen1' := hlen1
    have hlen2' := hlen2
    simp only [List.length_cons] at hlen1' hlen2'
    have hin_lt : sch.inputs.entries.length < tinyMaxLen := by omega
    have has_lt : sch.assignments.entries.length < tinyMaxLen := by omega
    have hstep_in : (blankStep sch k).inputs.entries
        = sch.inputs.entries ++ [(k, Occurrences.NoneOrMore)] := by
      rw [blankStep_inputs_entries sch k hin_lt]
      exact insertSorted_eq_append _ _ _
        (fun p hp => hin p hp k (List.mem_cons_self _ _))
    have hstep_as : (blankStep sch k).assignments.entries
        = sch.assignments.entries ++ [(k, Occurrences.NoneOrMore)] := by
      rw [blankStep_assignments_entries sch k has_lt]
      exact insertSorted_eq_append _ _ _
        (fun p hp => hassign p hp k (List.mem_cons_self _ _))
    have hfold : (k :: rest).foldl blankStep sch = rest.foldl blankStep (blankStep sch k) := rfl
    obtain ⟨e1, e2, e3, e4, e5⟩ := ih (blankStep sch k) hrest
      (by
        intro p hp r hr
        rw [hstep_in] at hp
        rcases List.mem_append.mp hp with h | h
        · exact hin p h r (List.mem_cons_of_mem _ hr)
        · have hpk : p = (k, Occurrences.NoneOrMore) := by simpa using h
          subst hpk
          exact hk_rest r hr)
      (by
        intro p hp r hr
        rw [hstep_as] at hp
        rcases List.mem_append.mp hp with h | h
        · exact hassign p h r (List.mem_cons_of_mem _ hr)
        · have hpk : p = (k, Occurrences.NoneOrMore) := by simpa using h
          subst hpk
          exact hk_rest r hr)
      (by
        rw [hstep_in]
        simp only [List.length_append, List.length_singleton]
        omega)
      (by
        rw [hstep_as]
        simp only [List.length_append, List.length_singleton]
        omega)
    rw [hfold]
    refine ⟨?_, ?_, ?_, ?_, ?_⟩
    · rw [e1, hstep_in]
      simp
    · rw [e2, hstep_as]
      simp
    · rw [e3]
      rfl
    · rw [e4]
      rfl
    · rw [e5]
      rfl

/-- C1: `blank_transition(s)` returns a transition schema whose `inputs` and
`assignments` both bind every owned-right type declared in `s.owned_types`
to the "zero or more" bound `Occurrences::NoneOrMore`; no entry exists for
any type not declared in `s.owned_types`; every other field equals the
default transition schema's.  The operation is a total function — it never
fails or panics (the source discards the impossible confinement error with
`.ok()`, and the embedding's insertion succeeds on every declared key). -/
theorem blank_transition_characterisation (Root : Type) (s : Schema Root) (t : Nat) :
    (t ∈ s.owned_types.keys →
      (s.blank_transition).inputs.get? t = some Occurrences.NoneOrMore ∧
      (s.blank_transition).assignments.get? t = some Occurrences.NoneOrMore) ∧
    (t ∉ s.owned_types.keys →
      (s.blank_transition).inputs.get? t = none ∧
      (s.blank_transition).assignments.get? t = none) ∧
    (s.blank_transition).metadata = TransitionSchema.defaultValue.metadata ∧
    (s.blank_transition).valencies = TransitionSchema.defaultValue.valencies ∧
    (s.blank_transition).abi = TransitionSchema.defaultValue.abi := by
  have hkeys : s.owned_types.keys.Pairwise (· < ·) :=
    List.Pairwise.map Prod.fst (fun a b h => h) s.owned_types.sorted
  have hlen : s.owned_types.keys.length ≤ tinyMaxLen := by
    have := s.owned_types.bounded
    simpa [TinyOrdMap.keys] using this
  obtain ⟨e1, e2, e3, e4, e5⟩ := foldl_blankStep_spec s.owned_types.keys
    TransitionSchema.defaultValue hkeys
    (by intro p hp; cases hp)
    (by intro p hp; cases hp)
    (by simpa [TransitionSchema.defaultValue, TinyOrdMap.empty] using hlen)
    (by simpa [TransitionSchema.defaultValue, TinyOrdMap.empty] using hlen)
  have hin : (s.blank_transition).inputs.entries
      = s.owned_types.keys.map (fun k => (k, Occurrences.NoneOrMore)) := by
    show (s.owned_types.keys.foldl blankStep TransitionSchema.defaultValue).inputs.entries = _
    rw [e1]
    rfl
  have has_ : (s.blank_transition).assignments.entries
      = s.owned_types.keys.map (fun k => (k, Occurrences.NoneOrMore)) := by
    show (s.owned_types.keys.foldl blankStep TransitionSchema.defaultValue).assignments.entries = _
    rw [e2]
    rfl
  refine ⟨?_, ?_, e3, e4, e5⟩
  · intro ht
    constructor
    · show lookupKey t (s.blank_transition).inputs.entries = _
      rw [hin, lookupKey_map_const, if_pos ht]
    · show lookupKey t (s.blank_transition).assignments.entries = _
      rw [has_, lookupKey_map_const, if_pos ht]
  · intro ht
    constructor
    · show lookupKey t (s.blank_transition).inputs.entries = _
      rw [hin, lookupKey_map_const, if_neg ht]
    · show lookupKey t (s.blank_transition).assignments.entries = _
      rw [has_, lookupKey_map_const, if_neg ht]

/-- Witness for C1: the characterisation evaluated on a concrete root schema
declaring owned types 1 and 2 — matching the spec's worked example — at a
declared and at an undeclared type. -/
theorem blank_transition_characterisation_witness :
    1 ∈ exampleRootSchema.owned_types.keys ∧
      exampleRootSchema.blank_transition.inputs.get? 1 = some Occurrences.NoneOrMore ∧
      exampleRootSchema.blank_transition.assignments.get? 2 = some Occurrences.NoneOrMore ∧
      exampleRootSchema.blank_transition.inputs.get? 7 = none :=
  ⟨by decide,
    ((blank_transition_characterisation Unit exampleRootSchema 1).1 (by decide)).1,
    ((blank_transition_characterisation Unit exampleRootSchema 2).1 (by decide)).2,
    ((blank_transition_characterisation Unit exampleRootSchema 7).2.1 (by decide)).1⟩

/-! ## Theorems about the Baid58 rendering -/

theorem b58Val_b58Char_fin : ∀ d : Fin 58, b58Val (b58Char d.val) = some d.val := by
  decide

theorem b58Char_eq_one_iff : ∀ d : Fin 58, (b58Char d.val = '1') ↔ d.val = 0 := by
  decide

theorem countLeading_cons_false {α : Type} (p : α → Bool) (a : α) (l : List α)
    (h : p a = false) : countLeading p (a :: l) = 0 := by
  simp [countLeading, h]

theorem countLeading_replicate_append {α : Type} (p : α → Bool) (e : α)
    (he : p e = true) (k : Nat) (t : List α) :
    countLeading p (List.replicate k e ++ t) = k + countLeading p t := by
  induction k with
  | zero => simp
  | succ m ih =>
    rw [List.replicate_succ, List.cons_append]
    simp only [countLeading, he, if_true]
    rw [ih]
    omega

theorem replicate_append_drop {α : Type} (p : α → Bool) (e : α)
    (he : ∀ x, p x = true → x = e) (l : List α) :
    List.replicate (countLeading p l) e ++ l.drop (countLeading p l) = l := by
  induction l with
  | nil => rfl
  | cons a rest ih =>
    by_cases h : p a = true
    · have ha : a = e := he a h
      subst ha
      simp only [countLeading, h, if_true, List.replicate_succ, List.cons_append,
        List.drop_succ_cons]
      rw [ih]
    · have h2 : p a = false := by
        cases hpa : p a
        · rfl
        · exact absurd hpa h
      simp [countLeading, h2]

theorem drop_countLeading_head {α : Type} (p : α → Bool) (l : List α) :
    ∀ hd tl, l.drop (countLeading p l) = hd :: tl → p hd = false := by
  induction l with
  | nil => intro hd tl h; simp at h
  | cons a rest ih =>
    intro hd tl h
    by_cases hpa : p a = true
    · simp only [countLeading, hpa, if_pos, List.drop_succ_cons] at h
      exact ih hd tl h
    · have h2 : p a = false := by
        cases hq : p a
        · rfl
        · exact absurd hq hpa
      simp only [countLeading, h2, if_neg, Bool.false_eq_true, not_false_iff,
        List.drop_zero] at h
      cases h
      exact h2

theorem ofDigits_replicate_zero (b k : Nat) :
    Nat.ofDigits b (List.replicate k 0) = 0 := by
  induction k with
  | zero => rfl
  | succ m ih => simp [List.replicate_succ, Nat.ofDigits_cons, ih]

theorem decodeDigits_map_b58Char :
    ∀ ds : List Nat, (∀ d ∈ ds, d < 58) → decodeDigits (ds.map b58Char) = some ds := by
  intro ds
  induction ds with
  | nil => intro _; rfl
  | cons d rest ih =>
    intro h
    have hd58 : d < 58 := h d (List.mem_cons_self _ _)
    have hv : b58Val (b58Char d) = some d := b58Val_b58Char_fin ⟨d, hd58⟩
    have hrest := ih fun x hx => h x (List.mem_cons_of_mem _ hx)
    simp [decodeDigits, hv, hrest]

theorem to_baid58_string_zero :
    to_baid58_string (List.replicate 32 0) = List.replicate 32 '1' := by
  unfold to_baid58_string beValue
  rw [List.reverse_replicate, ofDigits_replicate_zero, Nat.digits_zero]
  have hc : countLeading (fun x => decide (x = 0)) (List.replicate 32 (0 : Nat)) = 32 := by
    have := countLeading_replicate_append (fun x => decide (x = 0)) 0 (by simp) 32 []
    simpa using this
  rw [hc]
  simp

theorem from_baid58_str_replicate_ones :
    from_baid58_str (List.replicate 32 '1') = some (List.replicate 32 0) := by
  have hc : countLeading (fun c => decide (c = '1')) (List.replicate 32 '1') = 32 := by
    have := countLeading_replicate_append (fun c => decide (c = '1')) '1' (by simp) 32 []
    simpa using this
  have hdrop : (List.replicate 32 '1').drop 32 = [] := by simp
  simp only [from_baid58_str, hc, hdrop]
  simp [decodeDigits, Nat.ofDigits_nil, Nat.digits_zero]

theorem from_to_of_split (kk hd : Nat) (tl : List Nat)
    (hhd : hd ≠ 0) (hbytes : ∀ x ∈ hd :: tl, x < 256)
    (hlen : kk + tl.length + 1 = 32) :
    from_baid58_str (to_baid58_string (List.replicate kk 0 ++ hd :: tl))
      = some (List.replicate kk 0 ++ hd :: tl) := by
  have hn : beValue (List.replicate kk 0 ++ hd :: tl)
      = Nat.ofDigits 256 (tl.reverse ++ [hd]) := by
    rw [beValue, List.reverse_append, List.reverse_replicate, Nat.ofDigits_append,
      ofDigits_replicate_zero, List.reverse_cons]
    ring
  have hn_pos : beValue (List.replicate kk 0 ++ hd :: tl) ≠ 0 := by
    rw [hn, Nat.ofDigits_append]
    have h1 : (0 : Nat) < 256 ^ tl.reverse.length :=
      pow_pos (by norm_num) _
    have h2 : (0 : Nat) < hd := Nat.pos_of_ne_zero hhd
    have h3 : (0 : Nat) < 256 ^ tl.reverse.length * Nat.ofDigits 256 [hd] := by
      rw [Nat.ofDigits_singleton]
      exact Nat.mul_pos h1 h2
    omega
  have hdig_ne : Nat.digits 58 (beValue (List.replicate kk 0 ++ hd :: tl)) ≠ [] :=
    Nat.digits_ne_nil_iff_ne_zero.mpr hn_pos
  have hdig_lt : ∀ d ∈ Nat.digits 58 (beValue (List.replicate kk 0 ++ hd :: tl)), d < 58 :=
    fun _ hmem => Nat.digits_lt_base (by norm_num) hmem
  rcases hrev : (Nat.digits 58 (beValue (List.replicate kk 0 ++ hd :: tl))).reverse
    with _ | ⟨d0, ds⟩
  · rw [List.reverse_eq_nil_iff] at hrev
    exact absurd hrev hdig_ne
  have hdigits_eq : Nat.digits 58 (beValue (List.replicate kk 0 ++ hd :: tl))
      = ds.reverse ++ [d0] := by
    have := congrArg List.reverse hrev
    simpa [List.reverse_cons] using this
  have hd0_mem : d0 ∈ Nat.digits 58 (beValue (List.replicate kk 0 ++ hd :: tl)) := by
    rw [hdigits_eq]
    simp
  have hd0_lt : d0 < 58 := hdig_lt d0 hd0_mem
  have hd0_ne : d0 ≠ 0 := by
    have hlast := Nat.getLast_digit_ne_zero 58 hn_pos
    have htrans : (Nat.digits 58 (beValue (List.replicate kk 0 ++ hd :: tl))).getLast
        (Nat.digits_ne_nil_iff_ne_zero.mpr hn_pos) = d0 := by
      have h3 : ∀ (L : List Nat), L = ds.reverse ++ [d0] → ∀ hne : L ≠ [], L.getLast hne = d0 := by
        intro L hL
        subst hL
        intro hne
        rw [List.getLast_append' _ _ (by simp)]
        simp
      exact h3 _ hdigits_eq _
    exact htrans ▸ hlast
  have hchar_ne : (b58Char d0 = '1') = False := by
    simp only [eq_iff_iff, iff_false]
    intro hone
    exact hd0_ne ((b58Char_eq_one_iff ⟨d0, hd0_lt⟩).mp hone)
  have henc : to_baid58_string (List.replicate kk 0 ++ hd :: tl)
      = List.replicate kk '1' ++ (d0 :: ds).map b58Char := by
    rw [to_baid58_string, hrev]
    have hcz : countLeading (fun x => decide (x = 0)) (List.replicate kk 0 ++ hd :: tl)
        = kk := by
      rw [countLeading_replicate_append _ _ (by simp),
        countLeading_cons_false _ _ _ (by simpa using hhd)]
      omega
    rw [hcz]
  have hcount : countLeading (fun c => decide (c = '1'))
      (List.replicate kk '1' ++ (d0 :: ds).map b58Char) = kk := by
    rw [countLeading_replicate_append _ _ (by simp), List.map_cons,
      countLeading_cons_false _ _ _ (by simp [hchar_ne])]
    omega
  have hdropk : (List.replicate kk '1' ++ (d0 :: ds).map b58Char).drop kk
      = (d0 :: ds).map b58Char := by
    have h5 := List.drop_left (List.replicate kk '1') ((d0 :: ds).map b58Char)
    rwa [List.length_replicate] at h5
  have hds_lt : ∀ d ∈ d0 :: ds, d < 58 := by
    intro d hmem
    apply hdig_lt
    rw [hdigits_eq]
    rcases List.mem_cons.mp hmem with h | h
    · subst h
      simp
    · have : d ∈ ds.reverse := List.mem_reverse.mpr h
      exact List.mem_append_left _ this
  have hdecode : decodeDigits ((d0 :: ds).map b58Char) = some (d0 :: ds) :=
    decodeDigits_map_b58Char _ hds_lt
  have hvalue : Nat.ofDigits 58 (d0 :: ds).reverse
      = beValue (List.replicate kk 0 ++ hd :: tl) := by
    have h4 : (d0 :: ds).reverse = Nat.digits 58 (beValue (List.replicate kk 0 ++ hd :: tl)) := by
      rw [hdigits_eq]
      simp [List.reverse_cons]
    rw [h4, Nat.ofDigits_digits]
  have hbytes_back : Nat.digits 256 (beValue (List.replicate kk 0 ++ hd :: tl))
      = tl.reverse ++ [hd] := by
    rw [hn]
    apply Nat.digits_ofDigits 256 (by norm_num)
    · intro x hx
      rcases List.mem_append.mp hx with h | h
      · exact hbytes x (List.mem_cons_of_mem _ (List.mem_reverse.mp h))
      · have : x = hd := by simpa using h
        subst this
        exact hbytes x (List.mem_cons_self _ _)
    · intro hne
      rw [List.getLast_append' _ _ (by simp)]
      simpa using hhd
  rw [henc]
  simp only [from_baid58_str, hcount, hdropk, hdecode]
  rw [hvalue, hbytes_back]
  have hpay : (tl.reverse ++ [hd]).reverse = hd :: tl := by
    simp
  rw [hpay]
  have hlen32 : (List.replicate kk 0 ++ hd :: tl).length = 32 := by
    simp only [List.length_append, List.length_replicate, List.length_cons]
    omega
  rw [if_pos hlen32]

/-- C8: rendering a 32-byte `SchemaId` payload to its canonical string form
and parsing it back yields the identical payload; the all-zero identifier
renders as 32 repeated zero-symbols (`'1'`), and its three-word mnemonic
checksum is fixed and deterministic. -/
theorem schemaId_baid58_round_trip (b : List Nat) (h32 : b.length = 32)
    (hbytes : ∀ x ∈ b, x < 256) :
    from_baid58_str (to_baid58_string b) = some b ∧
    to_baid58_string (List.replicate 32 0) = List.replicate 32 '1' ∧
    mnemonic_checksum (List.replicate 32 0) = ["abandon", "abandon", "abandon"] := by
  refine ⟨?_, to_baid58_string_zero, by rfl⟩
  have hsplit := replicate_append_drop (fun x => decide (x = 0)) 0
    (fun x hx => of_decide_eq_true hx) b
  rcases hdrop : b.drop (countLeading (fun x => decide (x = 0)) b) with _ | ⟨hd, tl⟩
  · rw [hdrop, List.append_nil] at hsplit
    have hk : countLeading (fun x => decide (x = 0)) b = 32 := by
      have := congrArg List.length hsplit
      simpa [h32] using this
    rw [hk] at hsplit
    rw [← hsplit, to_baid58_string_zero]
    exact from_baid58_str_replicate_ones
  · rw [hdrop] at hsplit
    have hb_eq : b = List.replicate (countLeading (fun x => decide (x = 0)) b) 0
        ++ hd :: tl := hsplit.symm
    have hhd : hd ≠ 0 := by
      have := drop_countLeading_head (fun x => decide (x = 0)) b hd tl hdrop
      simpa using this
    have hbytes2 : ∀ x ∈ hd :: tl, x < 256 := by
      intro x hx
      apply hbytes
      rw [hb_eq]
      exact List.mem_append_right _ hx
    have hlen : countLeading (fun x => decide (x = 0)) b + tl.length + 1 = 32 := by
      have := congrArg List.length hb_eq
      simp only [List.length_append, List.length_replicate, List.length_cons, h32] at this
      omega
    rw [hb_eq]
    exact from_to_of_split _ hd tl hhd hbytes2 hlen

/-- Witness for C8: the round trip applied at the concrete all-zero 32-byte
payload. -/
theorem schemaId_baid58_round_trip_witness :
    (List.replicate 32 (0 : Nat)).length = 32 ∧
      from_baid58_str (to_baid58_string (List.replicate 32 0))
        = some (List.replicate 32 0) :=
  ⟨by decide,
    (schemaId_baid58_round_trip (List.replicate 32 0) (by decide) (by decide)).1⟩

/-! ## Theorems about script and VM dispatch -/

/-- C4: the conversion from context-specific actions to the unified `Action`
type is total (it is a function on all variants) and injective across all
contexts — no two distinct (context, variant) pairs map to the same unified
tag — and the tags are exactly those of the fixed table:
Genesis/Validate ↦ ValidateGenesis (0), Extension/Validate ↦
ValidateExtension (3), Transition/Validate ↦ ValidateTransition (2),
Transition/GenerateBlank ↦ BlankTransition (0x10), Assignment/Validate ↦
ValidateAssignment (4). -/
theorem contextAction_toAction_injective_and_table :
    (∀ a b : ContextAction, a.toAction.tag = b.toAction.tag → a = b) ∧
    (ContextAction.genesis GenesisAction.Validate).toAction = Action.ValidateGenesis ∧
    Action.ValidateGenesis.tag = 0 ∧
    (ContextAction.extensionCtx ExtensionAction.Validate).toAction = Action.ValidateExtension ∧
    Action.ValidateExtension.tag = 3 ∧
    (ContextAction.transition TransitionAction.Validate).toAction = Action.ValidateTransition ∧
    Action.ValidateTransition.tag = 2 ∧
    (ContextAction.transition TransitionAction.GenerateBlank).toAction = Action.BlankTransition ∧
    Action.BlankTransition.tag = 0x10 ∧
    (ContextAction.assignment AssignmentAction.Validate).toAction = Action.ValidateAssignment ∧
    Action.ValidateAssignment.tag = 4 := by
  refine ⟨?_, rfl, rfl, rfl, rfl, rfl, rfl, rfl, rfl, rfl, rfl⟩
  intro a b h
  cases a <;> rename_i x <;> cases x <;> cases b <;> rename_i y <;> cases y <;>
    simp_all [ContextAction.toAction, GenesisAction.toAction, ExtensionAction.toAction,
      TransitionAction.toAction, AssignmentAction.toAction, Action.tag]

/-- Witness for C4: the injectivity hypothesis discharged at a concrete pair
of context actions. -/
theorem contextAction_toAction_injective_witness :
    (ContextAction.transition TransitionAction.GenerateBlank).toAction.tag =
        (ContextAction.transition TransitionAction.GenerateBlank).toAction.tag ∧
      ContextAction.transition TransitionAction.GenerateBlank =
        ContextAction.transition TransitionAction.GenerateBlank :=
  ⟨rfl, contextAction_toAction_injective_and_table.1 _ _ rfl⟩

/-- C7: `vm_type()` returns `Embedded` exactly on the `Embedded` variant,
returns `AluVM` on `AluVM(b)` for every bytecode `b`, and the default
`VmScript` value is the `Embedded` variant. -/
theorem vmScript_vm_type_and_default :
    (∀ s : VmScript, s.vm_type = VmType.Embedded ↔ s = VmScript.Embedded) ∧
    (∀ b : List Nat, (VmScript.AluVM b).vm_type = VmType.AluVM) ∧
    VmScript.defaultValue = VmScript.Embedded := by
  refine ⟨?_, fun _ => rfl, rfl⟩
  intro s
  cases s <;> simp [VmScript.vm_type]

/-- Witness for C7: the characterisation evaluated at the `Embedded` value. -/
theorem vmScript_vm_type_witness :
    VmScript.Embedded.vm_type = VmType.Embedded ∧
      VmScript.Embedded = VmScript.Embedded :=
  ⟨rfl, (vmScript_vm_type_and_default.1 VmScript.Embedded).mp rfl⟩

/-- C9: `BLANK_TRANSITION_ID` equals `TransitionType::MAX`, that is 65535;
the single reserved blank-transition identifier is itself a representable
declared transition type, so a schema author using declared transition type
65535 collides with it. -/
theorem blank_transition_id_is_transition_type_max :
    BLANK_TRANSITION_ID = transitionTypeMax ∧ transitionTypeMax = 65535 ∧
      BLANK_TRANSITION_ID = 65535 :=
  ⟨rfl, rfl, rfl⟩

/-- C10: the default `OverrideRules` value is `Deny`; `Deny` permits a child
script only when it is identical to the parent's (no replacement of VM or
script), and it is the most restrictive policy: whatever `Deny` permits,
every other rule permits as well. -/
theorem overrideRules_default_is_deny :
    OverrideRules.defaultValue = OverrideRules.Deny ∧
    (∀ parent child : VmScript,
        overridePermits OverrideRules.Deny parent child = true ↔ child = parent) ∧
    (∀ r parent child, overridePermits OverrideRules.Deny parent child = true →
        overridePermits r parent child = true) := by
  refine ⟨rfl, ?_, ?_⟩
  · intro parent child
    simp [overridePermits]
  · intro r parent child h
    simp only [overridePermits, decide_eq_true_eq] at h
    subst h
    cases r <;> simp [overridePermits]

/-- Witness for C10: restrictiveness discharged at a concrete triple. -/
theorem overrideRules_default_is_deny_witness :
    overridePermits OverrideRules.Deny VmScript.Embedded VmScript.Embedded = true ∧
      overridePermits OverrideRules.AllowAnyVm VmScript.Embedded VmScript.Embedded = true :=
  ⟨by decide,
    overrideRules_default_is_deny.2.2 OverrideRules.AllowAnyVm VmScript.Embedded
      VmScript.Embedded (by decide)⟩

end RgbCore
